import Mathlib

/-!
Shallow embedding of `morse.c`: a Morse-code encoder writing packed bit
buffers, and the double-buffered playback state machine that drives a
signal callback from elapsed-time ticks.

Modelling choices:
* A buffer (`uint8_t[MORSE_MAX_LEN]`) is a function `Nat → Nat` from byte
  index to byte value; input strings are lists of ASCII codes (`List Nat`).
* All arithmetic is on `Nat`.  The C quantities involved (bit indices up to
  `size * 8 = 8192`, byte values below 256, per-character bit costs at most
  22) never reach the width of their C types (`uint32_t`, `uint8_t`), so no
  wrap-around is modelled.
* `fprintf` diagnostics have no effect on program state and are dropped;
  failure is the returned flag, as in C.
* The signal callback `morse_cb` is modelled by `morse_update` returning the
  emitted bit as an `Option Bool` (`none` = the callback is not invoked).
  The C body of `morse_update` contains a single call site of `morse_cb`,
  executed at most once per invocation, which is exactly what the `Option`
  captures.
* The global mutable state of `morse.c` (the two buffers, the live/next
  pointers, the repeat flags, timing) is a `MorseState` record threaded
  explicitly; the live/next pointer pair is a boolean selector over the two
  buffers, which swaps exactly when the C code swaps the pointers.
-/

abbrev Buf : Type := Nat → Nat

/-- Point update of a byte buffer (a C array store `buf[i] = v`). -/
def updB (buf : Buf) (i v : Nat) : Buf := fun j => if j = i then v else buf j

/-- `#define MORSE_MAX_LEN 1024` (morse.h). -/
def MORSE_MAX_LEN : Nat := 1024

/-- `#define OFFSET 48` — ASCII code of the first table character `'0'`. -/
def OFFSET : Nat := 48

/-- `#define MAX_CHAR 'Z'` — ASCII 90, last table character. -/
def MAX_CHAR : Nat := 90

/-- The static `letters` code table of morse.c: 43 entries indexed by
`toupper(c) - '0'`, digits at 0–9, seven empty gap entries at 10–16
(ASCII 58–64), letters A–Z at 17–42. -/
def letters : List String :=
  ["-----", ".----", "..---", "...--", "....-",
   ".....", "-....", "--...", "---..", "----.",
   "", "", "", "", "", "", "",
   ".-", "-...", "-.-.", "-..", ".", "..-.", "--.", "....", "..",
   ".---", "-.-", ".-..", "--", "-.", "---", ".--.", "--.-", ".-.",
   "...", "-", "..-", "...-", ".--", "-..-", "-.--", "--.."]

/-- C `toupper` restricted to ASCII codes, as used on the input bytes. -/
def c_toupper (c : Nat) : Nat := if 97 ≤ c ∧ c ≤ 122 then c - 32 else c

/-- One iteration of the loop body of `morse_encode_bit`: store bit `i`
(bit `i % 8` of byte `i / 8`), clearing the byte first when it is the
byte's first bit. -/
def write_bit (buf : Buf) (value : Bool) (i : Nat) : Buf :=
  let bit_index := i % 8
  let buf_index := i / 8
  let base := if bit_index = 0 then 0 else buf buf_index
  updB buf buf_index (base ||| ((if value then 1 else 0) <<< bit_index))

/-- The `for` loop of `morse_encode_bit`, running `n` iterations from bit
index `i`; on reaching `limit` it zeroes bytes 0–3 (the length header) and
reports failure. -/
def write_loop (buf : Buf) (value : Bool) (i n limit : Nat) : Bool × Buf :=
  match n with
  | 0 => (true, buf)
  | Nat.succ m =>
    if limit ≤ i then (false, updB (updB (updB (updB buf 0 0) 1 0) 2 0) 3 0)
    else write_loop (write_bit buf value i) value (i + 1) m limit

/-- `morse_encode_bit` of morse.c.  The C in-out `*index` is modelled by
returning the new index: advanced by `n` on success, unchanged on
failure. -/
def morse_encode_bit (buf : Buf) (value : Bool) (n index limit : Nat) :
    Bool × Buf × Nat :=
  let r := write_loop buf value index n limit
  if r.1 then (true, r.2, index + n) else (false, r.2, index)

/-- The per-element `for` loop of `morse_encode_char`: for each symbol of a
code-table entry, one off unit of spacing then the symbol itself (dot = 1 on
unit, dash = 3 on units). -/
def morse_encode_series (buf : Buf) (series : List Char) (i limit : Nat) :
    Bool × Buf × Nat :=
  match series with
  | [] => (true, buf, i)
  | e :: rest =>
    let r1 := morse_encode_bit buf false 1 i limit
    if r1.1 then
      let n := if e = '.' then 1 else 3
      let r2 := morse_encode_bit r1.2.1 true n r1.2.2 limit
      if r2.1 then morse_encode_series r2.2.1 rest r2.2.2 limit
      else (false, r2.2.1, r2.2.2)
    else (false, r1.2.1, r1.2.2)

/-- `morse_encode_char` of morse.c: returns the mutated buffer and the
`char_len` return value (0 = failure).  The C table access
`letters[c - OFFSET]` is `letters.getD (c - OFFSET) ""`; the range check
guarantees `c - OFFSET ≤ 42`, within the 43-entry table, so the default is
never taken on the paths the C code reaches. -/
def morse_encode_char (buf : Buf) (ch index limit : Nat) : Buf × Nat :=
  let c := c_toupper ch
  if c = 32 then
    let r := morse_encode_bit buf false 4 index limit
    if r.1 then (r.2.1, r.2.2 - index) else (r.2.1, 0)
  else if c < OFFSET ∨ MAX_CHAR < c then (buf, 0)
  else
    let r := morse_encode_bit buf false 2 index limit
    if r.1 then
      let rs := morse_encode_series r.2.1
        (letters.getD (c - OFFSET) "").toList r.2.2 limit
      if rs.1 then (rs.2.1, rs.2.2 - index) else (rs.2.1, 0)
    else (r.2.1, 0)

/-- The per-character `for` loop of `morse_encode` (also reused for the
three padding spaces, which the C code emits through the same
`morse_encode_char` call).  Returns the success flag, the buffer and the
final bit index `i`. -/
def morse_encode_loop (buf : Buf) (s : List Nat) (i limit : Nat) :
    Bool × Buf × Nat :=
  match s with
  | [] => (true, buf, i)
  | c :: rest =>
    let r := morse_encode_char buf c i limit
    if r.2 = 0 then (false, r.1, i)
    else morse_encode_loop r.1 rest (i + r.2) limit

/-- `morse_encode_len` of morse.c: store `bit_len` big-endian into bytes
0–3. -/
def morse_encode_len (buf : Buf) (bit_len : Nat) : Buf :=
  updB (updB (updB (updB buf
    0 ((bit_len &&& 0xFF000000) >>> 24))
    1 ((bit_len &&& 0x00FF0000) >>> 16))
    2 ((bit_len &&& 0x0000FF00) >>> 8))
    3 (bit_len &&& 0x000000FF)

/-- `morse_len` of morse.c: read the big-endian length header. -/
def morse_len (buf : Buf) : Nat :=
  ((buf 0) <<< 24) ||| ((buf 1) <<< 16) ||| ((buf 2) <<< 8) ||| buf 3

/-- `morse_encode` of morse.c: bits start at index 32 (after the length
header); after the characters, three padding spaces; then the header is
written with the bit count. -/
def morse_encode (buf : Buf) (s : List Nat) (size : Nat) : Bool × Buf :=
  if size < 4 then (false, buf)
  else
    let bit_size := size * 8
    let r := morse_encode_loop buf s 32 bit_size
    if r.1 then
      let rp := morse_encode_loop r.2.1 [32, 32, 32] r.2.2 bit_size
      if rp.1 then (true, morse_encode_len rp.2.1 (rp.2.2 - 32))
      else (false, rp.2.1)
    else (false, r.2.1)

/-- `morse_bit` of morse.c: bit `bit_index` of the content region (offset
by the 32 header bits), LSB-first within each byte. -/
def morse_bit (buf : Buf) (bit_index : Nat) : Bool :=
  (buf ((bit_index + 32) / 8) >>> ((bit_index + 32) % 8)) &&& 1 == 1

/-- The mutable globals of morse.c.  `liveIsOne` selects which buffer the
`morse_live_buf` pointer designates. -/
structure MorseState where
  buf1 : Buf
  buf2 : Buf
  liveIsOne : Bool
  morse_repeat : Bool
  morse_repeat_next : Bool
  morse_dot_duration : Nat
  morse_elapsed_time : Nat

def morse_live_buf (σ : MorseState) : Buf :=
  if σ.liveIsOne then σ.buf1 else σ.buf2

def morse_next_buf (σ : MorseState) : Buf :=
  if σ.liveIsOne then σ.buf2 else σ.buf1

/-- Store through the `morse_live_buf` pointer. -/
def set_live_buf (σ : MorseState) (b : Buf) : MorseState :=
  if σ.liveIsOne then { σ with buf1 := b } else { σ with buf2 := b }

/-- Store through the `morse_next_buf` pointer. -/
def set_next_buf (σ : MorseState) (b : Buf) : MorseState :=
  if σ.liveIsOne then { σ with buf2 := b } else { σ with buf1 := b }

/-- `morse_switch_buf` of morse.c: swap the live/next pointers, promote
`morse_repeat_next` into `morse_repeat`, and clear the (new) next buffer's
length header. -/
def morse_switch_buf (σ : MorseState) : MorseState :=
  let σ1 := { σ with liveIsOne := !σ.liveIsOne,
                     morse_repeat := σ.morse_repeat_next,
                     morse_repeat_next := false }
  set_next_buf σ1 (morse_encode_len (morse_next_buf σ1) 0)

/-- `morse` of morse.c (the submit entry point): encode into the next
buffer — discarding the success flag, as the C code does — then set the
repeat flags. -/
def morse (s : List Nat) (rep : Bool) (σ : MorseState) : MorseState :=
  let σ1 := set_next_buf σ (morse_encode (morse_next_buf σ) s MORSE_MAX_LEN).2
  { σ1 with morse_repeat_next := rep, morse_repeat := false }

/-- `morse_update` of morse.c: returns the new state and the bit passed to
`morse_cb` (`none` when the callback is not invoked). -/
def morse_update (elapsed_ms : Nat) (σ : MorseState) : MorseState × Option Bool :=
  let live_len := morse_len (morse_live_buf σ)
  if live_len = 0 ∧ morse_len (morse_next_buf σ) = 0 then (σ, none)
  else
    let et := σ.morse_elapsed_time + elapsed_ms
    let bit_index := et / σ.morse_dot_duration
    let σ2 :=
      if live_len ≤ bit_index then
        { (if σ.morse_repeat then { σ with morse_elapsed_time := et }
           else morse_switch_buf { σ with morse_elapsed_time := et }) with
          morse_elapsed_time := 0 }
      else { σ with morse_elapsed_time := et }
    (σ2, some (morse_bit (morse_live_buf σ2) bit_index))

/-- `morse_stop` of morse.c. -/
def morse_stop (σ : MorseState) : MorseState :=
  { σ with morse_repeat := false }

/-- `morse_interrupt` of morse.c: zero the live buffer's length header and
clear the repeat flag. -/
def morse_interrupt (σ : MorseState) : MorseState :=
  let σ1 := set_live_buf σ (morse_encode_len (morse_live_buf σ) 0)
  { σ1 with morse_repeat := false }

/-! Specification-side cost functions, transcribing the per-character unit
costs stated in the spec (§8): a letter or digit costs 2 plus, per symbol
of its code-table entry, 1 plus 1 for a dot or 3 for a dash; a space costs
4. -/

def symbol_cost (e : Char) : Nat := 1 + (if e = '.' then 1 else 3)

def series_cost (l : List Char) : Nat := (l.map symbol_cost).sum

def char_cost (c : Nat) : Nat :=
  if c_toupper c = 32 then 4
  else 2 + series_cost (letters.getD (c_toupper c - OFFSET) "").toList

def cost_sum (s : List Nat) : Nat := (s.map char_cost).sum

/-- Membership in the claim's input alphabet `{0-9, A-Z, a-z, space}`. -/
def good_char (c : Nat) : Bool :=
  c = 32 || (48 ≤ c && c ≤ 57) || (65 ≤ c && c ≤ 90) || (97 ≤ c && c ≤ 122)

/-- A character the encoder emits bits for: a space, or one passing the
range validation `OFFSET ≤ toupper c ≤ MAX_CHAR` of `morse_encode_char`. -/
def emittable (c : Nat) : Bool :=
  c_toupper c = 32 || (OFFSET ≤ c_toupper c && c_toupper c ≤ MAX_CHAR)

/-- Two ASCII strings equal up to letter case: pointwise equal after
`c_toupper`. -/
def case_eq_str : List Nat → List Nat → Bool
  | [], [] => true
  | a :: s, b :: t => c_toupper a = c_toupper b && case_eq_str s t
  | _, _ => false

/-! ### Basic lemmas about the length header -/

theorem morse_len_morse_encode_len (buf : Buf) (n : Nat) (h : n < 2 ^ 32) :
    morse_len (morse_encode_len buf n) = n := by
  have m24 : (0xFF000000 : Nat) = (2 ^ 8 - 1) <<< 24 := by decide
  have m16 : (0x00FF0000 : Nat) = (2 ^ 8 - 1) <<< 16 := by decide
  have m8 : (0x0000FF00 : Nat) = (2 ^ 8 - 1) <<< 8 := by decide
  have m0 : (0x000000FF : Nat) = 2 ^ 8 - 1 := by decide
  simp only [morse_len, morse_encode_len, updB]
  norm_num
  rw [m24, m16, m8, m0]
  apply Nat.eq_of_testBit_eq
  intro i
  simp only [Nat.testBit_or, Nat.testBit_shiftLeft, Nat.testBit_shiftRight,
    Nat.testBit_and, Nat.testBit_two_pow_sub_one]
  rcases Nat.lt_or_ge i 8 with h8 | h8
  · simp [show ¬ (24 ≤ i) by omega, show ¬ (16 ≤ i) by omega,
      show ¬ (8 ≤ i) by omega, h8]
  rcases Nat.lt_or_ge i 16 with h16 | h16
  · have e : 8 + (i - 8) = i := by omega
    simp [show ¬ (24 ≤ i) by omega, show ¬ (16 ≤ i) by omega, h8, e,
      show i - 8 < 8 by omega, show ¬ (i < 8) by omega]
  rcases Nat.lt_or_ge i 24 with h24 | h24
  · have e : 16 + (i - 16) = i := by omega
    simp [show ¬ (24 ≤ i) by omega, h16, e,
      show i - 16 < 8 by omega, show ¬ (i - 8 < 8) by omega,
      show ¬ (i < 8) by omega]
  rcases Nat.lt_or_ge i 32 with h32 | h32
  · have e : 24 + (i - 24) = i := by omega
    simp [h24, e, show i - 24 < 8 by omega, show ¬ (i - 16 < 8) by omega,
      show ¬ (i - 8 < 8) by omega, show ¬ (i < 8) by omega]
  · have hn : n.testBit i = false := by
      apply Nat.testBit_lt_two_pow
      calc n < 2 ^ 32 := h
        _ ≤ 2 ^ i := Nat.pow_le_pow_right (by omega) h32
    simp [hn, show ¬ (i - 24 < 8) by omega, show ¬ (i - 16 < 8) by omega,
      show ¬ (i - 8 < 8) by omega, show ¬ (i < 8) by omega]

/-! ### Success path of the encoder -/

theorem write_loop_ok (buf : Buf) (v : Bool) (i n limit : Nat)
    (h : i + n ≤ limit) : (write_loop buf v i n limit).1 = true := by
  induction n generalizing buf i with
  | zero => rfl
  | succ m ih =>
    simp only [write_loop]
    rw [if_neg (by omega)]
    exact ih _ _ (by omega)

theorem morse_encode_bit_ok (buf : Buf) (v : Bool) (n index limit : Nat)
    (h : index + n ≤ limit) :
    morse_encode_bit buf v n index limit =
      (true, (write_loop buf v index n limit).2, index + n) := by
  simp only [morse_encode_bit]
  rw [if_pos (write_loop_ok buf v index n limit h)]

theorem symbol_cost_ge (e : Char) :
    symbol_cost e = 2 ∨ symbol_cost e = 4 := by
  unfold symbol_cost
  split <;> simp

theorem morse_encode_series_cons (buf : Buf) (e : Char) (rest : List Char)
    (i limit : Nat) (h1 : i + 1 ≤ limit)
    (h2 : i + 1 + (if e = '.' then 1 else 3) ≤ limit) :
    morse_encode_series buf (e :: rest) i limit =
      morse_encode_series
        ((write_loop ((write_loop buf false i 1 limit).2) true (i + 1)
          (if e = '.' then 1 else 3) limit).2)
        rest (i + 1 + (if e = '.' then 1 else 3)) limit := by
  simp only [morse_encode_series]
  rw [morse_encode_bit_ok buf false 1 i limit h1]
  simp only
  rw [morse_encode_bit_ok _ true _ (i + 1) limit h2]
  simp

theorem morse_encode_series_ok (l : List Char) (buf : Buf) (i limit : Nat)
    (h : i + series_cost l ≤ limit) :
    (morse_encode_series buf l i limit).1 = true ∧
      (morse_encode_series buf l i limit).2.2 = i + series_cost l := by
  induction l generalizing buf i with
  | nil => simp [morse_encode_series, series_cost]
  | cons e rest ih =>
    have hsym : symbol_cost e = 1 + (if e = '.' then 1 else 3) := rfl
    have hcost : series_cost (e :: rest) = symbol_cost e + series_cost rest := by
      simp [series_cost]
    have hw : (if e = '.' then 1 else 3) = 1 ∨ (if e = '.' then 1 else 3) = 3 := by
      split <;> simp
    have h1 : i + 1 ≤ limit := by
      rw [hcost, hsym] at h; rcases hw with hw | hw <;> omega
    have h2 : i + 1 + (if e = '.' then 1 else 3) ≤ limit := by
      rw [hcost, hsym] at h; rcases hw with hw | hw <;> omega
    rw [morse_encode_series_cons buf e rest i limit h1 h2]
    have hrec := ih ((write_loop ((write_loop buf false i 1 limit).2) true
        (i + 1) (if e = '.' then 1 else 3) limit).2)
      (i + 1 + (if e = '.' then 1 else 3))
      (by rw [hcost, hsym] at h; omega)
    refine ⟨hrec.1, ?_⟩
    rw [hrec.2, hcost, hsym]
    omega

theorem char_cost_pos (c : Nat) : 0 < char_cost c := by
  unfold char_cost
  split
  · omega
  · omega

theorem morse_encode_char_ok (buf : Buf) (ch index limit : Nat)
    (hv : emittable ch = true) (h : index + char_cost ch ≤ limit) :
    (morse_encode_char buf ch index limit).2 = char_cost ch := by
  by_cases hsp : c_toupper ch = 32
  · have hc : char_cost ch = 4 := by simp [char_cost, hsp]
    rw [hc] at h
    simp only [morse_encode_char]
    rw [if_pos hsp, morse_encode_bit_ok buf false 4 index limit h]
    simp [hc]
  · have hrange : OFFSET ≤ c_toupper ch ∧ c_toupper ch ≤ MAX_CHAR := by
      simp [emittable] at hv
      rcases hv with hv | hv
      · exact absurd hv hsp
      · exact hv
    have hval : ¬ (c_toupper ch < OFFSET ∨ MAX_CHAR < c_toupper ch) := by omega
    have hc : char_cost ch = 2 + series_cost
        (letters.getD (c_toupper ch - OFFSET) "").toList := by
      simp [char_cost, hsp]
    rw [hc] at h
    simp only [morse_encode_char]
    rw [if_neg hsp, if_neg hval,
      morse_encode_bit_ok buf false 2 index limit (by omega)]
    simp only
    have hs := morse_encode_series_ok
      (letters.getD (c_toupper ch - OFFSET) "").toList
      ((write_loop buf false index 2 limit).2) (index + 2) limit (by omega)
    simp only [hs.1, eq_self_iff_true, if_true]
    rw [hs.2, hc]
    omega

theorem morse_encode_loop_ok (s : List Nat) (buf : Buf) (i limit : Nat)
    (hv : ∀ c ∈ s, emittable c = true) (h : i + cost_sum s ≤ limit) :
    (morse_encode_loop buf s i limit).1 = true ∧
      (morse_encode_loop buf s i limit).2.2 = i + cost_sum s := by
  induction s generalizing buf i with
  | nil => simp [morse_encode_loop, cost_sum]
  | cons c rest ih =>
    have hcost : cost_sum (c :: rest) = char_cost c + cost_sum rest := by
      simp [cost_sum]
    rw [hcost] at h
    have hchar := morse_encode_char_ok buf c i limit (hv c (by simp)) (by omega)
    simp only [morse_encode_loop, hchar]
    rw [if_neg (by have := char_cost_pos c; omega)]
    have hrec := ih (morse_encode_char buf c i limit).1 (i + char_cost c)
      (fun d hd => hv d (by simp [hd])) (by omega)
    refine ⟨hrec.1, ?_⟩
    rw [hrec.2, hcost]
    omega

theorem morse_encode_ok (s : List Nat) (buf : Buf)
    (hv : ∀ c ∈ s, emittable c = true) (h : 32 + cost_sum s + 12 ≤ 8192) :
    (morse_encode buf s 1024).1 = true ∧
      morse_len (morse_encode buf s 1024).2 = cost_sum s + 12 := by
  have hsp : ∀ c ∈ [32, 32, 32], emittable c = true := by decide
  have hc3 : cost_sum [32, 32, 32] = 12 := by decide
  have h1 := morse_encode_loop_ok s buf 32 8192 hv (by omega)
  have h2 := morse_encode_loop_ok [32, 32, 32]
    (morse_encode_loop buf s 32 8192).2.1 (morse_encode_loop buf s 32 8192).2.2
    8192 hsp (by rw [h1.2, hc3]; omega)
  rw [h1.2] at h2
  simp only [morse_encode]
  norm_num
  rw [h1.2]
  simp only [h1.1, h2.1, eq_self_iff_true, if_true]
  rw [h2.2, hc3]
  refine ⟨trivial, ?_⟩
  rw [show 32 + cost_sum s + 12 - 32 = cost_sum s + 12 by omega]
  exact morse_len_morse_encode_len _ _ (by omega)

theorem good_char_emittable {c : Nat} (h : good_char c = true) :
    emittable c = true := by
  simp only [good_char, Bool.or_eq_true, decide_eq_true_eq,
    Bool.and_eq_true] at h
  simp only [emittable, c_toupper, OFFSET, MAX_CHAR, Bool.or_eq_true,
    decide_eq_true_eq, Bool.and_eq_true]
  by_cases hl : 97 ≤ c ∧ c ≤ 122
  · rw [if_pos hl]
    omega
  · rw [if_neg hl]
    omega

/-- C1: for every input over `{0-9, A-Z, a-z, space}` whose encoding fits
the buffer's bit capacity, `morse_encode` succeeds and the bit length
written to the length header is the sum of the per-character unit costs
(letter/digit: 2 plus, per code-table symbol, 1 plus 1 for a dot or 3 for
a dash; space: 4) plus the 12 trailing off units of the appended 3-space
separator. -/
theorem claim_C1_valid_input_length (s : List Nat) (buf : Buf)
    (hv : ∀ c ∈ s, good_char c = true)
    (hcap : 32 + cost_sum s + 12 ≤ MORSE_MAX_LEN * 8) :
    (morse_encode buf s MORSE_MAX_LEN).1 = true ∧
      morse_len (morse_encode buf s MORSE_MAX_LEN).2 = cost_sum s + 12 := by
  have he : ∀ c ∈ s, emittable c = true :=
    fun c hc => good_char_emittable (hv c hc)
  have hm : MORSE_MAX_LEN = 1024 := rfl
  rw [hm] at hcap ⊢
  exact morse_encode_ok s buf he (by omega)

theorem claim_C1_valid_input_length_witness :
    (morse_encode (fun _ => 0) [83, 79, 83] MORSE_MAX_LEN).1 = true ∧
      morse_len (morse_encode (fun _ => 0) [83, 79, 83] MORSE_MAX_LEN).2 =
        cost_sum [83, 79, 83] + 12 :=
  claim_C1_valid_input_length [83, 79, 83] (fun _ => 0) (by decide) (by decide)

/-! ### Overflow path of the encoder -/

/-- Bytes 0–3 (the length header) are zero. -/
def header_zero (buf : Buf) : Prop :=
  buf 0 = 0 ∧ buf 1 = 0 ∧ buf 2 = 0 ∧ buf 3 = 0

theorem write_loop_fail (buf : Buf) (v : Bool) (i n limit : Nat)
    (hn : 0 < n) (h : limit < i + n) :
    (write_loop buf v i n limit).1 = false ∧
      header_zero (write_loop buf v i n limit).2 := by
  induction n generalizing buf i with
  | zero => omega
  | succ m ih =>
    simp only [write_loop]
    by_cases hi : limit ≤ i
    · rw [if_pos hi]
      exact ⟨rfl, by simp [header_zero, updB]⟩
    · rw [if_neg hi]
      exact ih (write_bit buf v i) (i + 1) (by omega) (by omega)

theorem morse_encode_bit_fail (buf : Buf) (v : Bool) (n i limit : Nat)
    (hn : 0 < n) (h : limit < i + n) :
    morse_encode_bit buf v n i limit =
      (false, (write_loop buf v i n limit).2, i) := by
  have hf := (write_loop_fail buf v i n limit hn h).1
  simp only [morse_encode_bit, hf]
  simp

theorem morse_encode_series_fail (l : List Char) (buf : Buf) (i limit : Nat)
    (hl : l ≠ []) (h : limit < i + series_cost l) :
    (morse_encode_series buf l i limit).1 = false ∧
      header_zero (morse_encode_series buf l i limit).2.1 := by
  induction l generalizing buf i with
  | nil => exact absurd rfl hl
  | cons e rest ih =>
    have hsym : symbol_cost e = 1 + (if e = '.' then 1 else 3) := rfl
    have hcost : series_cost (e :: rest) = symbol_cost e + series_cost rest := by
      simp [series_cost]
    have hw : (if e = '.' then 1 else 3) = 1 ∨ (if e = '.' then 1 else 3) = 3 := by
      split <;> simp
    rw [hcost, hsym] at h
    by_cases h1 : limit < i + 1
    · simp only [morse_encode_series]
      rw [morse_encode_bit_fail buf false 1 i limit (by omega) h1]
      simp only [Bool.false_eq_true, if_false]
      exact ⟨trivial, (write_loop_fail buf false i 1 limit (by omega) h1).2⟩
    · push_neg at h1
      by_cases h2 : limit < i + 1 + (if e = '.' then 1 else 3)
      · simp only [morse_encode_series]
        rw [morse_encode_bit_ok buf false 1 i limit h1]
        simp only
        rw [morse_encode_bit_fail _ true _ (i + 1) limit (by rcases hw with hw | hw <;> omega) h2]
        simp only [Bool.false_eq_true, if_false, if_true]
        refine ⟨trivial, ?_⟩
        exact (write_loop_fail _ true (i + 1) _ limit (by rcases hw with hw | hw <;> omega) h2).2
      · push_neg at h2
        rw [morse_encode_series_cons buf e rest i limit h1 h2]
        have hrne : rest ≠ [] := by
          intro hre
          rw [hre] at h
          simp only [series_cost, List.map_nil, List.sum_nil] at h
          omega
        exact ih _ _ hrne (by omega)

theorem morse_encode_char_fail (buf : Buf) (ch i limit : Nat)
    (hv : emittable ch = true) (h : limit < i + char_cost ch) :
    (morse_encode_char buf ch i limit).2 = 0 ∧
      header_zero (morse_encode_char buf ch i limit).1 := by
  by_cases hsp : c_toupper ch = 32
  · have hc : char_cost ch = 4 := by simp [char_cost, hsp]
    rw [hc] at h
    simp only [morse_encode_char]
    rw [if_pos hsp, morse_encode_bit_fail buf false 4 i limit (by omega) h]
    simp only [Bool.false_eq_true, if_false]
    exact ⟨trivial, (write_loop_fail buf false i 4 limit (by omega) h).2⟩
  · have hrange : OFFSET ≤ c_toupper ch ∧ c_toupper ch ≤ MAX_CHAR := by
      simp [emittable] at hv
      rcases hv with hv | hv
      · exact absurd hv hsp
      · exact hv
    have hval : ¬ (c_toupper ch < OFFSET ∨ MAX_CHAR < c_toupper ch) := by omega
    have hc : char_cost ch = 2 + series_cost
        (letters.getD (c_toupper ch - OFFSET) "").toList := by
      simp [char_cost, hsp]
    rw [hc] at h
    simp only [morse_encode_char]
    rw [if_neg hsp, if_neg hval]
    by_cases h2 : limit < i + 2
    · rw [morse_encode_bit_fail buf false 2 i limit (by omega) h2]
      simp only [Bool.false_eq_true, if_false]
      exact ⟨trivial, (write_loop_fail buf false i 2 limit (by omega) h2).2⟩
    · push_neg at h2
      rw [morse_encode_bit_ok buf false 2 i limit h2]
      simp only
      have hlne : (letters.getD (c_toupper ch - OFFSET) "").toList ≠ [] := by
        intro hnil
        rw [hnil] at h
        simp only [series_cost, List.map_nil, List.sum_nil] at h
        omega
      have hs := morse_encode_series_fail
        (letters.getD (c_toupper ch - OFFSET) "").toList
        ((write_loop buf false i 2 limit).2) (i + 2) limit hlne (by omega)
      rw [hs.1]
      simp only [Bool.false_eq_true, if_false]
      exact ⟨rfl, hs.2⟩

theorem morse_encode_loop_fail (s : List Nat) (buf : Buf) (i limit : Nat)
    (hs : s ≠ []) (hv : ∀ c ∈ s, emittable c = true)
    (h : limit < i + cost_sum s) :
    (morse_encode_loop buf s i limit).1 = false ∧
      header_zero (morse_encode_loop buf s i limit).2.1 := by
  induction s generalizing buf i with
  | nil => exact absurd rfl hs
  | cons c rest ih =>
    have hcost : cost_sum (c :: rest) = char_cost c + cost_sum rest := by
      simp [cost_sum]
    rw [hcost] at h
    by_cases h1 : limit < i + char_cost c
    · have hcf := morse_encode_char_fail buf c i limit (hv c (by simp)) h1
      simp only [morse_encode_loop, hcf.1, eq_self_iff_true, if_true]
      exact ⟨trivial, hcf.2⟩
    · push_neg at h1
      have hco := morse_encode_char_ok buf c i limit (hv c (by simp)) h1
      simp only [morse_encode_loop, hco]
      rw [if_neg (by have := char_cost_pos c; omega)]
      have hrne : rest ≠ [] := by
        intro hre
        rw [hre] at h
        simp only [cost_sum, List.map_nil, List.sum_nil] at h
        omega
      exact ih _ _ hrne (fun d hd => hv d (by simp [hd])) (by omega)

theorem morse_len_of_header_zero {buf : Buf} (h : header_zero buf) :
    morse_len buf = 0 := by
  obtain ⟨h0, h1, h2, h3⟩ := h
  simp [morse_len, h0, h1, h2, h3]

/-- C5: for every emittable input whose emission exceeds the buffer's bit
capacity, `morse_encode` aborts, zeroes the length header (bytes 0–3, so
the recorded length is 0) and returns failure.  (The `fprintf` diagnostic
has no observable effect on the modelled state.) -/
theorem claim_C5_overflow_reset (s : List Nat) (buf : Buf)
    (hv : ∀ c ∈ s, emittable c = true)
    (hcap : MORSE_MAX_LEN * 8 < 32 + cost_sum s + 12) :
    (morse_encode buf s MORSE_MAX_LEN).1 = false ∧
      header_zero (morse_encode buf s MORSE_MAX_LEN).2 ∧
      morse_len (morse_encode buf s MORSE_MAX_LEN).2 = 0 := by
  have hm : MORSE_MAX_LEN = 1024 := rfl
  rw [hm] at hcap ⊢
  simp only [morse_encode]
  norm_num
  by_cases hA : 8192 < 32 + cost_sum s
  · have hsne : s ≠ [] := by
      intro he
      rw [he] at hA
      simp only [cost_sum, List.map_nil, List.sum_nil] at hA
      omega
    have hf := morse_encode_loop_fail s buf 32 8192 hsne hv (by omega)
    simp only [hf.1, Bool.false_eq_true, if_false]
    exact ⟨trivial, hf.2, morse_len_of_header_zero hf.2⟩
  · push_neg at hA
    have h1 := morse_encode_loop_ok s buf 32 8192 hv (by omega)
    have hsp : ∀ c ∈ [32, 32, 32], emittable c = true := by decide
    have hc3 : cost_sum [32, 32, 32] = 12 := by decide
    have h2 := morse_encode_loop_fail [32, 32, 32]
      (morse_encode_loop buf s 32 8192).2.1
      (morse_encode_loop buf s 32 8192).2.2 8192 (by simp) hsp
      (by rw [h1.2, hc3]; omega)
    rw [h1.2] at h2
    simp only [h1.1, eq_self_iff_true, if_true]
    rw [h1.2]
    simp only [h2.1, Bool.false_eq_true, if_false]
    exact ⟨trivial, h2.2, morse_len_of_header_zero h2.2⟩

set_option maxRecDepth 100000 in
theorem claim_C5_overflow_reset_witness :
    (morse_encode (fun _ => 0) (List.replicate 371 48) MORSE_MAX_LEN).1 = false ∧
      header_zero (morse_encode (fun _ => 0) (List.replicate 371 48) MORSE_MAX_LEN).2 ∧
      morse_len (morse_encode (fun _ => 0) (List.replicate 371 48) MORSE_MAX_LEN).2 = 0 :=
  claim_C5_overflow_reset (List.replicate 371 48) (fun _ => 0)
    (by decide) (by decide)

theorem write_loop_preserve (buf : Buf) (v : Bool) (i n limit : Nat)
    (hi : 32 ≤ i) (h : i + n ≤ limit) (j : Nat) (hj : j < 4) :
    (write_loop buf v i n limit).2 j = buf j := by
  induction n generalizing buf i with
  | zero => rfl
  | succ m ih =>
    simp only [write_loop]
    rw [if_neg (by omega)]
    rw [ih (write_bit buf v i) (i + 1) (by omega) (by omega)]
    simp only [write_bit, updB]
    rw [if_neg (by omega)]

theorem morse_encode_series_preserve (l : List Char) (buf : Buf)
    (i limit : Nat) (hi : 32 ≤ i) (h : i + series_cost l ≤ limit)
    (j : Nat) (hj : j < 4) :
    (morse_encode_series buf l i limit).2.1 j = buf j := by
  induction l generalizing buf i with
  | nil => rfl
  | cons e rest ih =>
    have hsym : symbol_cost e = 1 + (if e = '.' then 1 else 3) := rfl
    have hcost : series_cost (e :: rest) = symbol_cost e + series_cost rest := by
      simp [series_cost]
    have hw : (if e = '.' then 1 else 3) = 1 ∨ (if e = '.' then 1 else 3) = 3 := by
      split <;> simp
    rw [hcost, hsym] at h
    have h1 : i + 1 ≤ limit := by rcases hw with hw | hw <;> omega
    have h2 : i + 1 + (if e = '.' then 1 else 3) ≤ limit := by
      rcases hw with hw | hw <;> omega
    rw [morse_encode_series_cons buf e rest i limit h1 h2]
    rw [ih _ (i + 1 + (if e = '.' then 1 else 3)) (by omega) (by omega)]
    rw [write_loop_preserve _ true (i + 1) _ limit (by omega) h2 j hj]
    rw [write_loop_preserve buf false i 1 limit hi h1 j hj]

theorem morse_encode_char_preserve (buf : Buf) (ch i limit : Nat)
    (hv : emittable ch = true) (hi : 32 ≤ i) (h : i + char_cost ch ≤ limit)
    (j : Nat) (hj : j < 4) :
    (morse_encode_char buf ch i limit).1 j = buf j := by
  by_cases hsp : c_toupper ch = 32
  · have hc : char_cost ch = 4 := by simp [char_cost, hsp]
    rw [hc] at h
    simp only [morse_encode_char]
    rw [if_pos hsp, morse_encode_bit_ok buf false 4 i limit h]
    simp only
    exact write_loop_preserve buf false i 4 limit hi h j hj
  · have hrange : OFFSET ≤ c_toupper ch ∧ c_toupper ch ≤ MAX_CHAR := by
      simp [emittable] at hv
      rcases hv with hv | hv
      · exact absurd hv hsp
      · exact hv
    have hval : ¬ (c_toupper ch < OFFSET ∨ MAX_CHAR < c_toupper ch) := by omega
    have hc : char_cost ch = 2 + series_cost
        (letters.getD (c_toupper ch - OFFSET) "").toList := by
      simp [char_cost, hsp]
    rw [hc] at h
    simp only [morse_encode_char]
    rw [if_neg hsp, if_neg hval,
      morse_encode_bit_ok buf false 2 i limit (by omega)]
    simp only
    have hs := morse_encode_series_ok
      (letters.getD (c_toupper ch - OFFSET) "").toList
      ((write_loop buf false i 2 limit).2) (i + 2) limit (by omega)
    simp only [hs.1, eq_self_iff_true, if_true]
    rw [morse_encode_series_preserve _ _ (i + 2) limit (by omega) (by omega) j hj]
    exact write_loop_preserve buf false i 2 limit hi (by omega) j hj

theorem morse_encode_loop_preserve (s : List Nat) (buf : Buf)
    (i limit : Nat) (hv : ∀ c ∈ s, emittable c = true) (hi : 32 ≤ i)
    (h : i + cost_sum s ≤ limit) (j : Nat) (hj : j < 4) :
    (morse_encode_loop buf s i limit).2.1 j = buf j := by
  induction s generalizing buf i with
  | nil => rfl
  | cons c rest ih =>
    have hcost : cost_sum (c :: rest) = char_cost c + cost_sum rest := by
      simp [cost_sum]
    rw [hcost] at h
    have hco := morse_encode_char_ok buf c i limit (hv c (by simp)) (by omega)
    simp only [morse_encode_loop, hco]
    rw [if_neg (by have := char_cost_pos c; omega)]
    rw [ih (morse_encode_char buf c i limit).1 (i + char_cost c)
      (fun d hd => hv d (by simp [hd])) (by omega) (by omega)]
    exact morse_encode_char_preserve buf c i limit (hv c (by simp)) hi
      (by omega) j hj

theorem morse_encode_loop_append (buf : Buf) (s t : List Nat)
    (i limit : Nat) :
    morse_encode_loop buf (s ++ t) i limit =
      (if (morse_encode_loop buf s i limit).1 then
        morse_encode_loop (morse_encode_loop buf s i limit).2.1 t
          (morse_encode_loop buf s i limit).2.2 limit
      else morse_encode_loop buf s i limit) := by
  induction s generalizing buf i with
  | nil => simp [morse_encode_loop]
  | cons c rest ih =>
    simp only [List.cons_append, morse_encode_loop]
    by_cases hr : (morse_encode_char buf c i limit).2 = 0
    · simp [hr]
    · simp [hr, ih]

theorem morse_encode_char_invalid (buf : Buf) (ch i limit : Nat)
    (hc : emittable ch = false) :
    morse_encode_char buf ch i limit = (buf, 0) := by
  have h1 : ¬ c_toupper ch = 32 ∧
      (c_toupper ch < OFFSET ∨ MAX_CHAR < c_toupper ch) := by
    simp only [emittable, Bool.or_eq_false_iff, Bool.and_eq_false_iff,
      decide_eq_false_iff_not] at hc
    obtain ⟨hc1, hc2⟩ := hc
    refine ⟨hc1, ?_⟩
    rcases hc2 with hc2 | hc2 <;> omega
  simp only [morse_encode_char]
  rw [if_neg h1.1, if_pos h1.2]

/-- C3 counterexample: the claim says a failed encode on an invalid
character leaves the length header at 0 regardless of the header held
before the call; but encoding "!" into a buffer whose bytes are all 1
fails and leaves the header at its prior nonzero value (16843009), since
the invalid-character path never touches the header. -/
theorem claim_C3_counterexample :
    (morse_encode (fun _ => 1) [33] MORSE_MAX_LEN).1 = false ∧
      morse_len (morse_encode (fun _ => 1) [33] MORSE_MAX_LEN).2 ≠ 0 := by
  decide

/-- C3 amended: on an input with an invalid character (outside the
supported range after upper-casing), encoding fails, the characters after
the invalid one are not processed (the result is exactly the state after
encoding the prefix), and the length header — every byte below 4 — is
left unchanged (hence 0 only if it was 0 before the call). -/
theorem claim_C3_amended_invalid_char (buf : Buf) (pre post : List Nat)
    (c : Nat) (hv : ∀ d ∈ pre, emittable d = true)
    (hfit : 32 + cost_sum pre ≤ MORSE_MAX_LEN * 8)
    (hc : emittable c = false) :
    morse_encode buf (pre ++ c :: post) MORSE_MAX_LEN =
      (false, (morse_encode_loop buf pre 32 (MORSE_MAX_LEN * 8)).2.1) ∧
      ∀ j, j < 4 →
        (morse_encode buf (pre ++ c :: post) MORSE_MAX_LEN).2 j = buf j := by
  have hm : MORSE_MAX_LEN = 1024 := rfl
  rw [hm] at hfit ⊢
  norm_num at hfit ⊢
  have hE : morse_encode buf (pre ++ c :: post) 1024 =
      (false, (morse_encode_loop buf pre 32 8192).2.1) := by
    simp only [morse_encode]
    norm_num
    rw [morse_encode_loop_append]
    have h1 := morse_encode_loop_ok pre buf 32 8192 hv (by omega)
    simp only [h1.1, eq_self_iff_true, if_true]
    simp only [morse_encode_loop]
    rw [morse_encode_char_invalid _ _ _ _ hc]
    simp only [eq_self_iff_true, if_true, Bool.false_eq_true, if_false]
  refine ⟨hE, ?_⟩
  intro j hj
  rw [hE]
  exact morse_encode_loop_preserve pre buf 32 8192 hv (by omega) (by omega) j hj

theorem claim_C3_amended_invalid_char_witness :
    morse_encode (fun _ => 7) ([72, 73] ++ 33 :: [65]) MORSE_MAX_LEN =
      (false,
        (morse_encode_loop (fun _ => 7) [72, 73] 32 (MORSE_MAX_LEN * 8)).2.1) ∧
      ∀ j, j < 4 →
        (morse_encode (fun _ => 7) ([72, 73] ++ 33 :: [65]) MORSE_MAX_LEN).2 j =
          (fun _ => (7 : Nat)) j :=
  claim_C3_amended_invalid_char (fun _ => 7) [72, 73] [65] 33
    (by decide) (by decide) (by decide)

/-- C4 counterexample: ASCII 58 (`':'`), in the gap between `'9'` and
`'A'`, passes the range validation `OFFSET ≤ c ≤ MAX_CHAR` of
`morse_encode_char`, so the gap entry `letters[10] = ""` IS looked up and
the character is encoded (2 off units) rather than rejected — refuting
the claim that validation rejects every character indexing an
empty/unused entry. -/
theorem claim_C4_counterexample :
    (OFFSET ≤ c_toupper 58 ∧ c_toupper 58 ≤ MAX_CHAR) ∧
      (58 ≤ c_toupper 58 ∧ c_toupper 58 ≤ 64) ∧
      letters.getD (c_toupper 58 - OFFSET) "" = "" ∧
      (morse_encode_char (fun _ => 0) 58 32 (MORSE_MAX_LEN * 8)).2 = 2 := by
  decide

/-- C4 amended: the range validation admits exactly `['0','Z']` after
upper-casing, which includes the gap 58–64; for any admitted character
the table index stays within the 43-entry table (no out-of-bounds
lookup), and a gap character's entry is the empty series, so encoding it
emits only the 2 leading off units (`char_len = 2`). -/
theorem claim_C4_amended_gap_lookup (c : Nat)
    (h1 : OFFSET ≤ c_toupper c) (h2 : c_toupper c ≤ MAX_CHAR) :
    c_toupper c - OFFSET < letters.length ∧
      (58 ≤ c_toupper c → c_toupper c ≤ 64 →
        letters.getD (c_toupper c - OFFSET) "" = "" ∧
        ∀ (buf : Buf) (i limit : Nat), i + 2 ≤ limit →
          (morse_encode_char buf c i limit).2 = 2) := by
  constructor
  · have hlen : letters.length = 43 := rfl
    rw [hlen]
    unfold OFFSET at h1 ⊢
    unfold MAX_CHAR at h2
    omega
  · intro hg1 hg2
    have hk : c_toupper c - OFFSET = 10 ∨ c_toupper c - OFFSET = 11 ∨
        c_toupper c - OFFSET = 12 ∨ c_toupper c - OFFSET = 13 ∨
        c_toupper c - OFFSET = 14 ∨ c_toupper c - OFFSET = 15 ∨
        c_toupper c - OFFSET = 16 := by
      unfold OFFSET
      omega
    have hempty : letters.getD (c_toupper c - OFFSET) "" = "" := by
      rcases hk with hk | hk | hk | hk | hk | hk | hk <;> rw [hk] <;> rfl
    refine ⟨hempty, ?_⟩
    intro buf i limit hlim
    have hv : emittable c = true := by
      simp only [emittable, Bool.or_eq_true, decide_eq_true_eq,
        Bool.and_eq_true]
      exact Or.inr ⟨h1, h2⟩
    have hcost : char_cost c = 2 := by
      simp only [char_cost]
      rw [if_neg (by unfold OFFSET at h1; omega), hempty]
      rfl
    have hok := morse_encode_char_ok buf c i limit hv (by rw [hcost]; omega)
    rw [hcost] at hok
    exact hok

theorem claim_C4_amended_gap_lookup_witness :
    c_toupper 58 - OFFSET < letters.length ∧
      letters.getD (c_toupper 58 - OFFSET) "" = "" ∧
      (morse_encode_char (fun _ => 0) 58 32 8192).2 = 2 := by
  have h := claim_C4_amended_gap_lookup 58 (by decide) (by decide)
  exact ⟨h.1, (h.2 (by decide) (by decide)).1,
    (h.2 (by decide) (by decide)).2 (fun _ => 0) 32 8192 (by decide)⟩

theorem morse_encode_char_case (buf : Buf) (i limit : Nat) {a b : Nat}
    (h : c_toupper a = c_toupper b) :
    morse_encode_char buf a i limit = morse_encode_char buf b i limit := by
  unfold morse_encode_char
  rw [h]

theorem morse_encode_loop_case (s t : List Nat) (buf : Buf) (i limit : Nat)
    (h : case_eq_str s t = true) :
    morse_encode_loop buf s i limit = morse_encode_loop buf t i limit := by
  induction s generalizing t buf i with
  | nil =>
    cases t with
    | nil => rfl
    | cons b t' => simp [case_eq_str] at h
  | cons a s' ih =>
    cases t with
    | nil => simp [case_eq_str] at h
    | cons b t' =>
      simp only [case_eq_str, Bool.and_eq_true, decide_eq_true_eq] at h
      simp only [morse_encode_loop]
      rw [morse_encode_char_case buf i limit h.1]
      by_cases hr : (morse_encode_char buf b i limit).2 = 0
      · simp [hr]
      · simp only [hr, if_false, if_neg hr]
        exact ih t' _ _ h.2

/-- C8: encoding is case-insensitive — two inputs equal up to letter case
(pointwise equal after `c_toupper`) produce identical results: the same
success flag and byte-for-byte identical buffer content, header
included. -/
theorem claim_C8_case_insensitive (buf : Buf) (s t : List Nat)
    (h : case_eq_str s t = true) :
    morse_encode buf s MORSE_MAX_LEN = morse_encode buf t MORSE_MAX_LEN := by
  simp only [morse_encode]
  rw [morse_encode_loop_case s t buf 32 (MORSE_MAX_LEN * 8) h]

theorem claim_C8_case_insensitive_witness :
    morse_encode (fun _ => 0) [115, 111, 115] MORSE_MAX_LEN =
      morse_encode (fun _ => 0) [83, 79, 83] MORSE_MAX_LEN :=
  claim_C8_case_insensitive (fun _ => 0) [115, 111, 115] [83, 79, 83]
    (by decide)

theorem morse_switch_buf_live (σ : MorseState) :
    morse_live_buf (morse_switch_buf σ) = morse_next_buf σ := by
  cases hL : σ.liveIsOne <;>
    simp [morse_switch_buf, set_next_buf, morse_live_buf, morse_next_buf, hL]

theorem morse_switch_buf_liveIsOne (σ : MorseState) :
    (morse_switch_buf σ).liveIsOne = !σ.liveIsOne := by
  cases hL : σ.liveIsOne <;>
    simp [morse_switch_buf, set_next_buf, hL]

/-- C2: on any tick that crosses the end of the live message
(bit index computed from accumulated time ≥ live length) with the repeat
flag false, outside the idle case, the buffer roles swap (the live
selector toggles) and the bit handed to the signal sink on that same tick
is read at the pre-swap bit index from the post-swap live buffer — the
buffer that was `next` before the swap — not at index 0. -/
theorem claim_C2_boundary_swap_bit (σ : MorseState) (ms : Nat)
    (hne : ¬ (morse_len (morse_live_buf σ) = 0 ∧
      morse_len (morse_next_buf σ) = 0))
    (hrep : σ.morse_repeat = false)
    (hbi : morse_len (morse_live_buf σ) ≤
      (σ.morse_elapsed_time + ms) / σ.morse_dot_duration) :
    (morse_update ms σ).1.liveIsOne = !σ.liveIsOne ∧
      (morse_update ms σ).2 =
        some (morse_bit (morse_next_buf σ)
          ((σ.morse_elapsed_time + ms) / σ.morse_dot_duration)) := by
  simp only [morse_update]
  rw [if_neg hne, if_pos hbi, hrep]
  simp only [Bool.false_eq_true, if_false]
  constructor
  · simp [morse_switch_buf_liveIsOne]
  · have hl : morse_live_buf (morse_switch_buf
        { σ with morse_repeat := false,
                 morse_elapsed_time := σ.morse_elapsed_time + ms }) =
          morse_next_buf σ := by
      rw [morse_switch_buf_live]
      rfl
    exact congrArg (fun bb => some (morse_bit bb
      ((σ.morse_elapsed_time + ms) / σ.morse_dot_duration))) hl

theorem claim_C2_boundary_swap_bit_witness :
    (morse_update 300 ⟨updB (fun _ => 0) 3 5, updB (fun _ => 0) 3 2, true,
        false, true, 60, 0⟩).1.liveIsOne = false ∧
      (morse_update 300 ⟨updB (fun _ => 0) 3 5, updB (fun _ => 0) 3 2, true,
          false, true, 60, 0⟩).2 =
        some (morse_bit (morse_next_buf ⟨updB (fun _ => 0) 3 5,
          updB (fun _ => 0) 3 2, true, false, true, 60, 0⟩) 5) :=
  claim_C2_boundary_swap_bit
    ⟨updB (fun _ => 0) 3 5, updB (fun _ => 0) 3 2, true, false, true, 60, 0⟩
    300 (by decide) rfl (by decide)

/-- C6: per tick the signal sink is invoked at most once (the model's
`Option Bool` captures the single call site of `morse_cb`); it is invoked
zero times exactly when both buffers record length 0, and in that idle
case the tick changes no state — in particular `morse_elapsed_time` is
not accumulated. -/
theorem claim_C6_tick_callback (σ : MorseState) (ms : Nat) :
    ((morse_update ms σ).2 = none ↔
      (morse_len (morse_live_buf σ) = 0 ∧
        morse_len (morse_next_buf σ) = 0)) ∧
      ((morse_len (morse_live_buf σ) = 0 ∧
        morse_len (morse_next_buf σ) = 0) → (morse_update ms σ).1 = σ) := by
  by_cases hc : morse_len (morse_live_buf σ) = 0 ∧
      morse_len (morse_next_buf σ) = 0
  · simp [morse_update, hc]
  · simp [morse_update, hc]

theorem claim_C6_tick_callback_witness :
    (morse_update 10 ⟨fun _ => 0, fun _ => 0, true, false, false, 60, 0⟩).2 =
        none ∧
      (morse_update 10 ⟨fun _ => 0, fun _ => 0, true, false, false, 60, 0⟩).1 =
        ⟨fun _ => 0, fun _ => 0, true, false, false, 60, 0⟩ := by
  have h := claim_C6_tick_callback
    ⟨fun _ => 0, fun _ => 0, true, false, false, 60, 0⟩ 10
  have hc : morse_len (morse_live_buf
        ⟨fun _ => 0, fun _ => 0, true, false, false, 60, 0⟩) = 0 ∧
      morse_len (morse_next_buf
        ⟨fun _ => 0, fun _ => 0, true, false, false, 60, 0⟩) = 0 := by decide
  exact ⟨h.1.mpr hc, h.2 hc⟩

theorem morse_live_buf_morse (s : List Nat) (r : Bool) (σ : MorseState) :
    morse_live_buf (morse s r σ) = morse_live_buf σ := by
  cases hL : σ.liveIsOne <;>
    simp [morse, set_next_buf, morse_live_buf, hL]

theorem morse_elapsed_morse (s : List Nat) (r : Bool) (σ : MorseState) :
    (morse s r σ).morse_elapsed_time = σ.morse_elapsed_time := by
  cases hL : σ.liveIsOne <;> simp [morse, set_next_buf, hL]

theorem morse_dot_morse (s : List Nat) (r : Bool) (σ : MorseState) :
    (morse s r σ).morse_dot_duration = σ.morse_dot_duration := by
  cases hL : σ.liveIsOne <;> simp [morse, set_next_buf, hL]

theorem morse_update_pre_boundary (σ : MorseState) (ms : Nat)
    (h : (σ.morse_elapsed_time + ms) / σ.morse_dot_duration <
      morse_len (morse_live_buf σ)) :
    (morse_update ms σ).1 =
      { σ with morse_elapsed_time := σ.morse_elapsed_time + ms } := by
  have hL : ¬ (morse_len (morse_live_buf σ) = 0 ∧
      morse_len (morse_next_buf σ) = 0) := by
    intro hcon
    rw [hcon.1] at h
    exact Nat.not_lt_zero _ h
  simp only [morse_update]
  rw [if_neg hL, if_neg (Nat.not_le.mpr h)]

theorem morse_submit_comm_elapsed (s : List Nat) (r : Bool) (σ : MorseState)
    (et : Nat) :
    morse s r { σ with morse_elapsed_time := et } =
      { morse s r σ with morse_elapsed_time := et } := by
  cases hL : σ.liveIsOne <;>
    simp [morse, set_next_buf, morse_next_buf, hL]

/-- C7: submitting writes only into the next buffer: every byte of the
live buffer is unchanged, and `morse_elapsed_time` too; consequently, for
any tick whose bit index falls before the live message's boundary, the
bit emitted after the submit equals the bit emitted without it, and the
post-tick states differ only by the submit itself (tick and submit
commute before the boundary) — so the whole bit sequence up to the
boundary is undisturbed. -/
theorem claim_C7_submit_frame (σ : MorseState) (s : List Nat) (r : Bool)
    (ms : Nat) :
    morse_live_buf (morse s r σ) = morse_live_buf σ ∧
      (morse s r σ).morse_elapsed_time = σ.morse_elapsed_time ∧
      ((σ.morse_elapsed_time + ms) / σ.morse_dot_duration <
          morse_len (morse_live_buf σ) →
        (morse_update ms (morse s r σ)).2 = (morse_update ms σ).2 ∧
        (morse_update ms (morse s r σ)).1 =
          morse s r (morse_update ms σ).1) := by
  refine ⟨morse_live_buf_morse s r σ, morse_elapsed_morse s r σ, ?_⟩
  intro hlt
  constructor
  case right =>
    have hlt2 : ((morse s r σ).morse_elapsed_time + ms) /
        (morse s r σ).morse_dot_duration <
        morse_len (morse_live_buf (morse s r σ)) := by
      rw [morse_elapsed_morse, morse_dot_morse, morse_live_buf_morse]
      exact hlt
    rw [morse_update_pre_boundary _ _ hlt2, morse_update_pre_boundary _ _ hlt]
    conv_rhs => rw [morse_submit_comm_elapsed]
    rw [morse_elapsed_morse]
  case left => ?_
  have hL : ¬ (morse_len (morse_live_buf (morse s r σ)) = 0 ∧
      morse_len (morse_next_buf (morse s r σ)) = 0) := by
    intro hcon
    rw [morse_live_buf_morse] at hcon
    rw [hcon.1] at hlt
    exact Nat.not_lt_zero _ hlt
  have hL2 : ¬ (morse_len (morse_live_buf σ) = 0 ∧
      morse_len (morse_next_buf σ) = 0) := by
    intro hcon
    rw [hcon.1] at hlt
    exact Nat.not_lt_zero _ hlt
  simp only [morse_update]
  rw [if_neg hL, if_neg hL2]
  rw [morse_elapsed_morse, morse_dot_morse, morse_live_buf_morse]
  rw [if_neg (Nat.not_le.mpr hlt), if_neg (Nat.not_le.mpr hlt)]
  exact congrArg (fun bb => some (morse_bit bb
    ((σ.morse_elapsed_time + ms) / σ.morse_dot_duration)))
    (morse_live_buf_morse s r σ)

theorem claim_C7_submit_frame_witness :
    morse_live_buf (morse [69] false
        ⟨updB (fun _ => 0) 3 5, fun _ => 0, true, true, false, 60, 0⟩) =
      morse_live_buf
        ⟨updB (fun _ => 0) 3 5, fun _ => 0, true, true, false, 60, 0⟩ ∧
      (morse [69] false
        ⟨updB (fun _ => 0) 3 5, fun _ => 0, true, true, false, 60, 0⟩).morse_elapsed_time = 0 ∧
      (morse_update 60 (morse [69] false
        ⟨updB (fun _ => 0) 3 5, fun _ => 0, true, true, false, 60, 0⟩)).2 =
      (morse_update 60
        ⟨updB (fun _ => 0) 3 5, fun _ => 0, true, true, false, 60, 0⟩).2 ∧
      (morse_update 60 (morse [69] false
        ⟨updB (fun _ => 0) 3 5, fun _ => 0, true, true, false, 60, 0⟩)).1 =
      morse [69] false (morse_update 60
        ⟨updB (fun _ => 0) 3 5, fun _ => 0, true, true, false, 60, 0⟩).1 := by
  have h := claim_C7_submit_frame
    ⟨updB (fun _ => 0) 3 5, fun _ => 0, true, true, false, 60, 0⟩ [69] false 60
  exact ⟨h.1, h.2.1, (h.2.2 (by decide)).1, (h.2.2 (by decide)).2⟩

/-- C9: `morse` (submit) mutates the repeat flags unconditionally — the
result of `morse_encode` is discarded, so for every call (including ones
whose encoding fails on an invalid character or overflow)
`morse_repeat_next` is set to the passed flag and `morse_repeat` is
cleared, which makes a currently-repeating live message stop repeating at
its next boundary. -/
theorem claim_C9_flags_unconditional (σ : MorseState) (s : List Nat)
    (r : Bool) :
    (morse s r σ).morse_repeat = false ∧
      (morse s r σ).morse_repeat_next = r := by
  cases hL : σ.liveIsOne <;> simp [morse, set_next_buf, hL]

/-- C10: `morse_interrupt` zeroes only the live buffer's length header
(bytes 0–3) and clears the repeat flag; `morse_elapsed_time` (which hence
carries over into the next tick), `morse_dot_duration`, the buffer roles,
the next buffer, `morse_repeat_next`, and every live-buffer byte beyond
the header are left unchanged. -/
theorem claim_C10_interrupt_frame (σ : MorseState) :
    (morse_interrupt σ).morse_elapsed_time = σ.morse_elapsed_time ∧
      (morse_interrupt σ).morse_dot_duration = σ.morse_dot_duration ∧
      (morse_interrupt σ).liveIsOne = σ.liveIsOne ∧
      (morse_interrupt σ).morse_repeat = false ∧
      (morse_interrupt σ).morse_repeat_next = σ.morse_repeat_next ∧
      morse_next_buf (morse_interrupt σ) = morse_next_buf σ ∧
      (∀ j, 4 ≤ j → morse_live_buf (morse_interrupt σ) j =
        morse_live_buf σ j) ∧
      (∀ j, j < 4 → morse_live_buf (morse_interrupt σ) j = 0) := by
  obtain ⟨b1, b2, lio, rp, rpn, dd, et⟩ := σ
  cases lio with
  | false =>
    refine ⟨rfl, rfl, rfl, rfl, rfl, rfl, ?_, ?_⟩
    · intro j hj
      show morse_encode_len b2 0 j = b2 j
      simp only [morse_encode_len, updB]
      rw [if_neg (by omega), if_neg (by omega), if_neg (by omega),
        if_neg (by omega)]
    · intro j hj
      have hij : j = 0 ∨ j = 1 ∨ j = 2 ∨ j = 3 := by omega
      show morse_encode_len b2 0 j = 0
      rcases hij with h | h | h | h <;> subst h <;>
        simp [morse_encode_len, updB]
  | true =>
    refine ⟨rfl, rfl, rfl, rfl, rfl, rfl, ?_, ?_⟩
    · intro j hj
      show morse_encode_len b1 0 j = b1 j
      simp only [morse_encode_len, updB]
      rw [if_neg (by omega), if_neg (by omega), if_neg (by omega),
        if_neg (by omega)]
    · intro j hj
      have hij : j = 0 ∨ j = 1 ∨ j = 2 ∨ j = 3 := by omega
      show morse_encode_len b1 0 j = 0
      rcases hij with h | h | h | h <;> subst h <;>
        simp [morse_encode_len, updB]

theorem claim_C10_interrupt_frame_witness :
    (morse_interrupt ⟨fun _ => 9, fun _ => 5, true, true, true, 60,
        123⟩).morse_elapsed_time = 123 ∧
      morse_live_buf (morse_interrupt
        ⟨fun _ => 9, fun _ => 5, true, true, true, 60, 123⟩) 5 = 9 ∧
      morse_live_buf (morse_interrupt
        ⟨fun _ => 9, fun _ => 5, true, true, true, 60, 123⟩) 0 = 0 := by
  have h := claim_C10_interrupt_frame
    ⟨fun _ => 9, fun _ => 5, true, true, true, 60, 123⟩
  refine ⟨h.1, ?_, h.2.2.2.2.2.2.2 0 (by omega)⟩
  have h5 := h.2.2.2.2.2.2.1 5 (by omega)
  rw [h5]
  rfl
